import Mathlib

/-!
Verification development for the snapflowio/websocket framework.

The Go sources are shallowly embedded here:
  * pattern.go           : the event-name pattern compiler and matcher,
  * socket.go            : the close latch, the read-loop error classification,
                           the interceptor table,
  * context_next.go      : the dispatch pipeline driver Next,
  * context.go           : context/message pooling,
  * rooms (rooms.go)     : room registry, membership, DeleteRoom, EmitTo,
  * server.go            : the Use pattern-normalisation step.

Go strings are embedded as List Char (with String used at the outermost
interfaces); Go maps are embedded as association lists or update functions;
pointers to room objects are embedded as numeric object identifiers allocated
by a counter, so that stale references surviving a DeleteRoom are represented
faithfully.
-/

namespace WSProof

/-! ### Pattern matcher (pattern.go)

A compiled pattern is the anchored regular expression built by
regExpFromChunks: the chunk patterns joined by a literal dot.  The regex
features that can occur are: quoted literals, the class pattern of a single
wildcard (one or more characters that are not a dot), and the deep wildcard
pattern (any characters other than a newline, possibly none).  We embed the
regex as a list of elements and give it an executable backtracking matcher.
A Go regexp negated class matches newline, while the bare dot metacharacter
does not; both facts are reflected below. -/

/-- One element of the compiled anchored regular expression.
lit s is a quoted literal; star is the class of one non-dot character
followed by star0, the zero-or-more non-dot class; deep is the zero-or-more
any-non-newline pattern emitted for the deep wildcard; sep is the literal
dot written between chunks. -/
inductive Elem : Type where
  | sep : Elem
  | lit : List Char → Elem
  | star : Elem
  | star0 : Elem
  | deep : Elem
deriving DecidableEq, Repr

/-- Backtracking matcher for the element list, with explicit fuel.
Each recursive call strictly decreases the sum of the element-list length and
the event length, so any fuel above that sum computes the true match result
(elemsMatchFuel_congr below).  Fuel zero conservatively reports no match. -/
def elemsMatchFuel : Nat → List Elem → List Char → Bool
  | 0, _, _ => false
  | _ + 1, [], l => l.isEmpty
  | _ + 1, Elem.sep :: _, [] => false
  | fuel + 1, Elem.sep :: es, c :: l => c = '.' && elemsMatchFuel fuel es l
  | fuel + 1, Elem.lit s :: es, l =>
      s.isPrefixOf l && elemsMatchFuel fuel es (l.drop s.length)
  | _ + 1, Elem.star :: _, [] => false
  | fuel + 1, Elem.star :: es, c :: l =>
      !(c = '.') && elemsMatchFuel fuel (Elem.star0 :: es) l
  | fuel + 1, Elem.star0 :: es, [] => elemsMatchFuel fuel es []
  | fuel + 1, Elem.star0 :: es, c :: l =>
      elemsMatchFuel fuel es (c :: l) ||
        (!(c = '.') && elemsMatchFuel fuel (Elem.star0 :: es) l)
  | fuel + 1, Elem.deep :: es, [] => elemsMatchFuel fuel es []
  | fuel + 1, Elem.deep :: es, c :: l =>
      elemsMatchFuel fuel es (c :: l) ||
        (!(c = '\n') && elemsMatchFuel fuel (Elem.deep :: es) l)

/-- Whole-string match of the anchored compiled regular expression. -/
def elemsMatch (es : List Elem) (l : List Char) : Bool :=
  elemsMatchFuel (es.length + l.length + 1) es l

/-- The chunk record of pattern.go, reduced to the three cases the parser
produces: a quoted-literal static part, the single wildcard, the deep
wildcard. -/
inductive chunk : Type where
  | static : List Char → chunk
  | wildSingle : chunk
  | wildDeep : chunk
deriving DecidableEq, Repr

/-- strings.Split on the dot separator (a one-character separator). -/
def splitOnDot : List Char → List (List Char)
  | [] => [[]]
  | c :: l =>
      if c = '.' then [] :: splitOnDot l
      else
        match splitOnDot l with
        | [] => [[c]]
        | p :: ps => (c :: p) :: ps

/-- parsePatternChunks of pattern.go: split the pattern on dots, drop empty
parts, classify each remaining part. -/
def parsePatternChunks (l : List Char) : List chunk :=
  (splitOnDot l).filterMap fun part =>
    if part = [] then none
    else if part = ['*'] then some chunk.wildSingle
    else if part = ['*', '*'] then some chunk.wildDeep
    else some (chunk.static part)

/-- The regex element a single chunk contributes. -/
def elemOfChunk : chunk → Elem
  | chunk.static s => Elem.lit s
  | chunk.wildSingle => Elem.star
  | chunk.wildDeep => Elem.deep

/-- regExpFromChunks of pattern.go: the empty chunk list compiles to the
empty anchored regex, and otherwise a literal-dot separator is written before
every chunk after the first, including a deep-wildcard chunk. -/
def regExpElemsFromChunks : List chunk → List Elem
  | [] => []
  | c :: rest =>
      elemOfChunk c :: rest.foldr (fun c' acc => Elem.sep :: elemOfChunk c' :: acc) []

/-- Pattern.Match for a pattern given as its source string: compile to chunks,
then to the anchored regex, then test the whole event string. -/
def wsMatch (pat ev : String) : Bool :=
  elemsMatch (regExpElemsFromChunks (parsePatternChunks pat.data)) ev.data

/-! ### Server.Use pattern normalisation (server.go)

The wildcard constants are referenced by Server.Use but declared outside the
provided sources. -/

/-- Modelled from the spec: the constant WildcardSingle, the single-segment
wildcard token, is not among the provided source files; per the spec it is
the one-character star token. -/
def wildcardSingle : List Char := ['*']

/-- Modelled from the spec: the constant WildcardDeep, the zero-or-more
segment wildcard token, is not among the provided source files; per the spec
it is the two-character double-star token. -/
def wildcardDeep : List Char := ['*', '*']

/-- The event pattern Server.Use registers, as a function of the optional
leading string argument.  strings.HasSuffix is embedded as List.isSuffixOf.
With no string argument the deep wildcard is used; otherwise the deep
wildcard preceded by a dot is appended unless the string already ends with
either wildcard token. -/
def useEvent (firstArg : Option (List Char)) : List Char :=
  match firstArg with
  | none => wildcardDeep
  | some customEvent =>
      if !(wildcardDeep.isSuffixOf customEvent)
          && !(wildcardSingle.isSuffixOf customEvent) then
        customEvent ++ '.' :: wildcardDeep
      else customEvent

/-- The trailing dot-separated segment of a pattern string, following the
wording of the spec (the last part after splitting on dots).  Used only to
compare the spec wording against the code behaviour. -/
def specTrailingSegment (ev : List Char) : List Char :=
  (splitOnDot ev).getLastD []

/-! ### Close latch and read loop (socket.go) -/

/-- Close source recorded with the close status. -/
inductive CloseSource : Type where
  | client : CloseSource
  | server : CloseSource
deriving DecidableEq, Repr

/-- The state guarded by the close mutex, plus a counter of how many times
the cancellation function has been invoked. -/
structure SocketClose where
  closed : Bool
  closeStatus : Int
  closeReason : String
  closeStatusSource : CloseSource
  cancelCount : Nat
deriving DecidableEq, Repr

/-- The close state of a freshly constructed socket: Go zero values. -/
def freshSocketClose : SocketClose :=
  { closed := false, closeStatus := 0, closeReason := ""
    closeStatusSource := CloseSource.client, cancelCount := 0 }

/-- Socket.Close: if already closed, return; otherwise set the flag, record
status, reason and source, and cancel the context. -/
def socketCloseCall (st : SocketClose) (status : Int) (reason : String)
    (source : CloseSource) : SocketClose :=
  if st.closed then st
  else
    { closed := true, closeStatus := status, closeReason := reason
      closeStatusSource := source, cancelCount := st.cancelCount + 1 }

/-- A triple of Close arguments, for reasoning about call sequences. -/
structure CloseArgs where
  status : Int
  reason : String
  source : CloseSource

/-- Apply one Close call from packed arguments. -/
def applyClose (st : SocketClose) (a : CloseArgs) : SocketClose :=
  socketCloseCall st a.status a.reason a.source

/-- What the transport read error exposes to HandleNextMessageWithNode:
the close status extracted by websocket.CloseStatus (negative one when the
error is not a close error) and whether the error is context cancellation. -/
structure ReadErr where
  closeStatus : Int
  canceled : Bool
deriving DecidableEq, Repr

/-- How one read-loop iteration ends: a boolean return to the server loop,
or an unrecoverable raised failure. -/
inductive ReadLoopOutcome : Type where
  | returned : Bool → ReadLoopOutcome
  | panicked : ReadLoopOutcome
deriving DecidableEq, Repr

/-- Socket.HandleNextMessageWithNode, as a function of the read result
(none models a successful read).  Returns the outcome, the new close state,
and whether a detached dispatch task was spawned. -/
def handleNextMessageWithNode (st : SocketClose) (r : Option ReadErr) :
    ReadLoopOutcome × SocketClose × Bool :=
  match r with
  | none => (ReadLoopOutcome.returned true, st, true)
  | some e =>
      if e.closeStatus ≠ -1 then
        (ReadLoopOutcome.returned false,
          socketCloseCall st e.closeStatus "" CloseSource.client, false)
      else if e.canceled then
        (ReadLoopOutcome.returned false, st, false)
      else (ReadLoopOutcome.panicked, st, false)

/-! ### Inbound messages and pools (messages.go, context.go)

Byte-slice and map references are embedded as opaque reference tokens
(Option Nat); none models a nil reference. -/

/-- The InboundMessage record. -/
structure InboundMessage where
  hasSetID : Bool
  hasSetEvent : Bool
  ID : String
  Event : String
  RawData : Option Nat
  Data : Option Nat
  Meta : Option Nat
deriving DecidableEq, Repr

/-- An inbound message with every field at its zero value. -/
def emptyInboundMessage : InboundMessage :=
  { hasSetID := false, hasSetEvent := false, ID := "", Event := ""
    RawData := none, Data := none, Meta := none }

/-- inboundMessageFromPool: the recycled object has every field reset on
acquisition (flags false, strings empty, references nil). -/
def inboundMessageFromPool (pooled : InboundMessage) : InboundMessage :=
  { pooled with
      hasSetID := false, hasSetEvent := false, ID := "", Event := ""
      RawData := none, Data := none, Meta := none }

/-- InboundMessage.free: the object is returned to the pool as is; no field
is cleared on release. -/
def InboundMessage.free (m : InboundMessage) : InboundMessage := m

/-- The Context record as pooled (context.go), with references embedded as
opaque tokens and the associated-values map as an association list.  The
per-context cancellation function, which free invokes and which is rebuilt
on every acquisition, is not represented. -/
structure ContextRec where
  parentContext : Option Nat
  socket : Option Nat
  message : Option InboundMessage
  messageType : Nat
  messageUnmarshaler : Option Nat
  messageMarshaller : Option Nat
  currentHandlerNode : Option Nat
  currentHandlerNodeMatches : Bool
  currentHandlerIndex : Nat
  currentHandler : Option Nat
  Error : Option String
  ErrorStack : String
  associatedValues : List (String × Nat)
deriving DecidableEq, Repr

/-- Context.free: release the inbound message to its own pool, clear every
reference and value of the context, and return the cleared context to the
context pool.  The first component is the object as it sits in the context
pool; the second is the message as it sits in the message pool. -/
def contextFree (c : ContextRec) : ContextRec × Option InboundMessage :=
  let released := c.message.map InboundMessage.free
  ({ parentContext := none, socket := none, message := none, messageType := 0
     messageUnmarshaler := none, messageMarshaller := none
     currentHandlerNode := none, currentHandlerNodeMatches := false
     currentHandlerIndex := 0, currentHandler := none
     Error := none, ErrorStack := "", associatedValues := [] }, released)

/-! ### Dispatch pipeline driver (context_next.go)

Handlers are embedded as opaque tags (Nat); the semantic effect of invoking
a handler on the dispatch-relevant state is a parameter (a user handler may
record an error, close the socket, or rewrite the message).  The panic
recovery wrapper is reflected in that a handler effect may set the error
flag.  Delivery on an interceptor channel and handler invocation are
recorded in traces.  The driver itself can raise on a nil handler-node
dereference reached from a malformed cursor; those paths return none.  The
unknown-handler-type panic cannot arise here because handlers are abstract
tags with a total semantics, matching the registration-time validation.
Parent propagation (tryUpdateParent) concerns subcontexts only and the
modelled contexts have no parent; the per-message channel send is recorded
as a delivery event. -/

/-- The three bind types of handler nodes. -/
inductive WSBindType : Type where
  | normalBind : WSBindType
  | openBind : WSBindType
  | closeBind : WSBindType
deriving DecidableEq, Repr

/-- A handler node: bind type, optional compiled pattern (nil matches
everything), and the handler list as opaque tags. -/
structure HandlerNode where
  bind : WSBindType
  pattern : Option (List chunk)
  handlers : List Nat
deriving DecidableEq, Repr

/-- HandlerNode.tryMatch: a nil pattern matches; otherwise the compiled
regular expression is tested against the context event. -/
def tryMatchNode (n : HandlerNode) (ev : String) : Bool :=
  match n.pattern with
  | none => true
  | some cs => elemsMatch (regExpElemsFromChunks cs) ev.data

/-- The dispatch-relevant mutable state a handler can observe and modify:
the inbound message, whether ctx.Error is set, whether the socket is closed,
and the socket interceptor table (the registered message IDs). -/
structure DState where
  message : InboundMessage
  errorSet : Bool
  socketClosed : Bool
  interceptors : List String
deriving DecidableEq, Repr

/-- Observation traces of one dispatch: IDs delivered on interceptor
channels, and invoked handler tags, in order. -/
structure Traces where
  delivered : List String
  invoked : List Nat
deriving DecidableEq, Repr

/-- The dispatch cursor of a Context: the handler-node chain suffix headed
by currentHandlerNode, the node-matches flag, the handler index within the
node, and the current handler. -/
structure Ctx where
  ds : DState
  tr : Traces
  nodes : List HandlerNode
  nodeMatches : Bool
  idx : Nat
  cur : Option Nat
deriving DecidableEq, Repr

/-- The handler-selection loop of Next (lines walking nodes forward until a
matching node with a remaining handler is found).  Returns the cursor as the
loop leaves it: node suffix, matches flag, index, current handler. -/
def selectLoop (ev : String) :
    List HandlerNode → Bool → Nat → Option Nat →
      List HandlerNode × Bool × Nat × Option Nat
  | [], matched, idx, cur => ([], matched, idx, cur)
  | n :: rest, matched, idx, cur =>
      if matched || tryMatchNode n ev then
        if idx < n.handlers.length then
          (n :: rest, true, idx + 1, some (n.handlers.getD idx 0))
        else selectLoop ev rest false 0 none
      else selectLoop ev rest false idx cur

/-- Clear the sticky has-set-event flag of the context message. -/
def clearHasSetEvent (c : Ctx) : Ctx :=
  { c with ds := { c.ds with message := { c.ds.message with hasSetEvent := false } } }

/-- Clear the sticky has-set-identifier flag of the context message. -/
def clearHasSetID (c : Ctx) : Ctx :=
  { c with ds := { c.ds with message := { c.ds.message with hasSetID := false } } }

/-- The event-change step of Next: if the event was rewritten and the cursor
sits inside a matched node whose pattern no longer matches, advance to the
next node and reset the within-node cursor; then clear the flag.  On a
cursor claiming a match with no current node the Go code dereferences nil
(none). -/
def eventStep (c : Ctx) : Option Ctx :=
  if c.ds.message.hasSetEvent then
    if c.nodeMatches then
      match c.nodes with
      | [] => none
      | n :: rest =>
          let c' :=
            if !(tryMatchNode n c.ds.message.Event) then
              { c with nodes := rest, nodeMatches := false, idx := 0, cur := none }
            else c
          some (clearHasSetEvent c')
    else some (clearHasSetEvent c)
  else some c

/-- Context.Next with explicit fuel for the open- and close-phase re-entry
recursion.  Every re-entry strictly decreases ctxMeasure, so the wrapper
Next below always supplies sufficient fuel; fuel zero returns none.
The steps, in source order: the error/closed guard; the interceptor check
(deliver and abort, or clear the flag); the event-change step; handler
selection; handler invocation; phase re-entry; cursor cleanup. -/
def NextFuel (hsem : Nat → DState → DState) : Nat → Ctx → Option Ctx
  | 0, _ => none
  | fuel + 1, c =>
      let isCloseHandler :=
        match c.nodes.head? with
        | some n => n.bind == WSBindType.closeBind
        | none => false
      if c.ds.errorSet || (!isCloseHandler && c.ds.socketClosed) then some c
      else if c.ds.message.hasSetID && c.ds.interceptors.contains c.ds.message.ID then
        some { c with tr := { c.tr with delivered := c.tr.delivered ++ [c.ds.message.ID] } }
      else
        let c1 := if c.ds.message.hasSetID then clearHasSetID c else c
        match eventStep c1 with
        | none => none
        | some c2 =>
            match selectLoop c2.ds.message.Event c2.nodes c2.nodeMatches c2.idx c2.cur with
            | (nodes2, matches2, idx2, none) =>
                some { c2 with nodes := nodes2, nodeMatches := matches2, idx := idx2, cur := none }
            | (nodes2, matches2, idx2, some h) =>
                match nodes2.head? with
                | none => none
                | some n =>
                    let c3 : Ctx :=
                      { ds := hsem h c2.ds
                        tr := { c2.tr with invoked := c2.tr.invoked ++ [h] }
                        nodes := nodes2, nodeMatches := matches2, idx := idx2
                        cur := some h }
                    let after :=
                      if (n.bind == WSBindType.openBind && !c3.ds.socketClosed)
                          || n.bind == WSBindType.closeBind then
                        NextFuel hsem fuel c3
                      else some c3
                    after.map fun c4 =>
                      { c4 with nodes := [], nodeMatches := false, idx := 0, cur := none }

/-- Total handler count of a node-list suffix. -/
def nodesSum (ns : List HandlerNode) : Nat :=
  (ns.map fun n => n.handlers.length).sum

/-- Handler count of the head node of a suffix (zero when empty). -/
def headHandlers (ns : List HandlerNode) : Nat :=
  match ns.head? with
  | some n => n.handlers.length
  | none => 0

/-- Remaining handler budget of a cursor: total handlers in the node suffix
minus the progress inside the head node.  Every Next re-entry strictly
decreases this quantity. -/
def ctxMeasure (c : Ctx) : Nat :=
  (c.nodes.map fun n => n.handlers.length).sum -
    min c.idx
      (match c.nodes.head? with
       | some n => n.handlers.length
       | none => 0)

/-- Context.Next: run the driver with fuel that dominates the re-entry
depth. -/
def Next (hsem : Nat → DState → DState) (c : Ctx) : Option Ctx :=
  NextFuel hsem (ctxMeasure c + 1) c

/-- A handler semantics with no effect, for concrete evaluations. -/
def hsemNoop : Nat → DState → DState := fun _ u => u

/-! ### Rooms, room manager, EmitTo (rooms.go)

Room objects are identified by numeric object identifiers allocated from a
counter; a socket rooms map holds name-to-object entries, so that a stale
object reference surviving DeleteRoom is representable.  Socket sets are
membership lists. -/

/-- Lookup in an association list embedding a Go string-keyed map. -/
def aLookup (xs : List (String × Nat)) (k : String) : Option Nat :=
  match xs with
  | [] => none
  | e :: rest => if e.fst = k then some e.snd else aLookup rest k

/-- Map removal: drop every entry with the given key. -/
def aErase (xs : List (String × Nat)) (k : String) : List (String × Nat) :=
  xs.filter fun e => !(e.fst == k)

/-- Map update: bind the key to the value, shadowing previous entries. -/
def aInsert (xs : List (String × Nat)) (k : String) (v : Nat) : List (String × Nat) :=
  (k, v) :: aErase xs k

/-- The room world: the allocation counter, the manager map from names to
room objects, each room object's name and socket set, and each socket's
rooms map from names to room objects. -/
structure World where
  nextRoomId : Nat
  mgr : List (String × Nat)
  roomName : Nat → String
  roomSockets : Nat → List Nat
  socketRooms : Nat → List (String × Nat)

/-- A world with no rooms and no memberships. -/
def emptyWorld : World :=
  { nextRoomId := 0, mgr := [], roomName := fun _ => ""
    roomSockets := fun _ => [], socketRooms := fun _ => [] }

/-- RoomManager.Room: return the existing room object or create a fresh one
(with an empty socket set) under the name. -/
def managerRoom (w : World) (name : String) : World × Nat :=
  match aLookup w.mgr name with
  | some rid => (w, rid)
  | none =>
      let rid := w.nextRoomId
      ({ w with
          nextRoomId := rid + 1
          mgr := aInsert w.mgr name rid
          roomName := fun r => if r = rid then name else w.roomName r
          roomSockets := fun r => if r = rid then [] else w.roomSockets r },
        rid)

/-- Room.addSocket: put the socket into the room's set. -/
def roomAddSocket (w : World) (rid sid : Nat) : World :=
  { w with
      roomSockets := fun r =>
        if r = rid then
          if sid ∈ w.roomSockets rid then w.roomSockets rid
          else sid :: w.roomSockets rid
        else w.roomSockets r }

/-- Room.removeSocket: delete the socket from the room's set. -/
def roomRemoveSocket (w : World) (rid sid : Nat) : World :=
  { w with
      roomSockets := fun r =>
        if r = rid then (w.roomSockets rid).filter (fun s => !(s == sid))
        else w.roomSockets r }

/-- Socket.Join: obtain the manager's room for the name (creating it if
needed), record it in the socket's rooms map, and add the socket to the
room's set. -/
def socketJoin (w : World) (sid : Nat) (name : String) : World :=
  let p := managerRoom w name
  let w2 :=
    { p.fst with
        socketRooms := fun s =>
          if s = sid then aInsert (p.fst.socketRooms sid) name p.snd
          else p.fst.socketRooms s }
  roomAddSocket w2 p.snd sid

/-- Socket.Leave: if the socket's rooms map has the name, drop the entry and
remove the socket from that room object's set. -/
def socketLeave (w : World) (sid : Nat) (name : String) : World :=
  match aLookup (w.socketRooms sid) name with
  | none => w
  | some rid =>
      let w1 :=
        { w with
            socketRooms := fun s =>
              if s = sid then aErase (w.socketRooms sid) name
              else w.socketRooms s }
      roomRemoveSocket w1 rid sid

/-- Socket.leaveAllRooms: swap the socket's rooms map for an empty one, then
remove the socket from each room object previously held. -/
def socketLeaveAll (w : World) (sid : Nat) : World :=
  let entries := w.socketRooms sid
  let w1 :=
    { w with
        socketRooms := fun s => if s = sid then [] else w.socketRooms s }
  entries.foldl (fun acc e => roomRemoveSocket acc e.snd sid) w1

/-- Room.Join: record the room object under its own name in the socket's
rooms map and add the socket to the room's set. -/
def roomJoin (w : World) (rid sid : Nat) : World :=
  let w1 :=
    { w with
        socketRooms := fun s =>
          if s = sid then aInsert (w.socketRooms sid) (w.roomName rid) rid
          else w.socketRooms s }
  roomAddSocket w1 rid sid

/-- Room.Leave: drop the room's name from the socket's rooms map and remove
the socket from the room's set. -/
def roomLeave (w : World) (rid sid : Nat) : World :=
  let w1 :=
    { w with
        socketRooms := fun s =>
          if s = sid then aErase (w.socketRooms sid) (w.roomName rid)
          else w.socketRooms s }
  roomRemoveSocket w1 rid sid

/-- Room.RemoveAll: replace the room's socket set with an empty one.  The
rooms maps of the member sockets are not touched. -/
def roomRemoveAll (w : World) (rid : Nat) : World :=
  { w with roomSockets := fun r => if r = rid then [] else w.roomSockets r }

/-- RoomManager.DeleteRoom: if the name is registered, clear the room's
socket set and remove the room from the manager map. -/
def deleteRoom (w : World) (name : String) : World :=
  match aLookup w.mgr name with
  | none => w
  | some rid => { roomRemoveAll w rid with mgr := aErase w.mgr name }

/-- Membership symmetry: a socket's rooms map holds a room object exactly
when that room object's set holds the socket. -/
def Sym (w : World) : Prop :=
  ∀ sid rid, (∃ name, aLookup (w.socketRooms sid) name = some rid) ↔
    sid ∈ w.roomSockets rid

/-- Every room object referenced by a socket's rooms map is the manager's
current room under that name (no stale references). -/
def Linked (w : World) : Prop :=
  ∀ sid name rid, aLookup (w.socketRooms sid) name = some rid →
    aLookup w.mgr name = some rid

/-- Every manager room identifier is below the allocation counter. -/
def MgrFresh (w : World) : Prop :=
  ∀ name rid, aLookup w.mgr name = some rid → rid < w.nextRoomId

/-- Distinct names never share a manager room object. -/
def MgrInj (w : World) : Prop :=
  ∀ n1 n2 rid, aLookup w.mgr n1 = some rid → aLookup w.mgr n2 = some rid →
    n1 = n2

/-- The conjunction of the room-world well-formedness facts. -/
def WInv (w : World) : Prop := Sym w ∧ Linked w ∧ MgrFresh w ∧ MgrInj w

/-- The error taxonomy values relevant to EmitTo (errors.go): the
socket-not-found error, and transport send failures. -/
inductive GoError : Type where
  | socketNotFound : GoError
  | sendFailed : Nat → GoError
deriving DecidableEq, Repr

/-- RoomManager.GetSocketByID: scan the manager's rooms and return the first
member socket whose identifier matches. -/
def getSocketByID (w : World) (id : Nat) : Option Nat :=
  w.mgr.findSome? fun e => (w.roomSockets e.snd).find? fun s => s == id

/-- Context.EmitTo, as a function of whether the context still holds a
socket, whether a room manager is attached, the room world, the target
identifier, and the transport send result for each socket.  Returns the
error EmitTo returns and the socket a message was sent to, if any
(marshalling is folded into the send result; it happens only after the
lookup succeeds). -/
def ctxEmitTo (socketAttached rmAttached : Bool) (w : World) (targetID : Nat)
    (sendResult : Nat → Option GoError) : Option GoError × Option Nat :=
  if !socketAttached || !rmAttached then (none, none)
  else
    match getSocketByID w targetID with
    | none => (none, none)
    | some target => (sendResult target, some target)

/-! ### Auxiliary specification-side definitions -/

/-- A concrete dispatch context for evaluations: a fresh message-phase
dispatch whose message carries a set identifier that has an interceptor
registered on the socket. -/
def exInterceptCtx : Ctx :=
  { ds :=
      { message :=
          { hasSetID := true, hasSetEvent := false, ID := "rq1", Event := ""
            RawData := none, Data := none, Meta := none }
        errorSet := false, socketClosed := false, interceptors := ["rq1"] }
    tr := { delivered := [], invoked := [] }
    nodes := [{ bind := WSBindType.normalBind, pattern := none, handlers := [7] }]
    nodeMatches := false, idx := 0, cur := none }

/-- The same dispatch context with an empty interceptor table. -/
def exNoInterceptCtx : Ctx :=
  { exInterceptCtx with ds := { exInterceptCtx.ds with interceptors := [] } }

/-- The context state after dispatching exNoInterceptCtx with the no-effect
handler semantics: the identifier flag was cleared, the single handler ran,
the cursor was reset. -/
def exNoInterceptResult : Ctx :=
  { ds :=
      { message :=
          { hasSetID := false, hasSetEvent := false, ID := "rq1", Event := ""
            RawData := none, Data := none, Meta := none }
        errorSet := false, socketClosed := false, interceptors := [] }
    tr := { delivered := [], invoked := [7] }
    nodes := [], nodeMatches := false, idx := 0, cur := none }

/-- Dots that one regex element necessarily consumes: a separator consumes
one, a literal consumes the dots of its text, wildcard classes consume dots
only through the deep pattern (not counted here, hence a lower bound). -/
def elemDotsLB : Elem → Nat
  | Elem.sep => 1
  | Elem.lit s => s.count '.'
  | _ => 0

/-- Lower bound on the dots of any text matched by the element list. -/
def dotsLB (es : List Elem) : Nat := (es.map elemDotsLB).sum

/-- Number of nonempty dot-separated segments of an event string (empty
segments do not count as segments, matching how the parser drops them). -/
def eventSegs (e : String) : Nat :=
  ((splitOnDot e.data).filter fun part => !part.isEmpty).length

/-- A pooled inbound message still carrying user values, for concrete
evaluations. -/
def exPooledMsg : InboundMessage :=
  { hasSetID := true, hasSetEvent := true, ID := "abc", Event := "chat"
    RawData := some 1, Data := some 2, Meta := some 3 }

/-- A fully populated context record about to be released, for concrete
evaluations. -/
def exCtxRec : ContextRec :=
  { parentContext := some 1, socket := some 2, message := some exPooledMsg
    messageType := 1, messageUnmarshaler := some 3, messageMarshaller := some 4
    currentHandlerNode := some 5, currentHandlerNodeMatches := true
    currentHandlerIndex := 2, currentHandler := some 6
    Error := some "boom", ErrorStack := "trace"
    associatedValues := [("k", 9)] }

/-! ## Lemmas and theorems -/

theorem dotsLB_nil : dotsLB [] = 0 := rfl

theorem dotsLB_cons (e : Elem) (es : List Elem) :
    dotsLB (e :: es) = elemDotsLB e + dotsLB es := by
  simp [dotsLB]

theorem count_dot_cons_le (c : Char) (l : List Char) :
    l.count '.' ≤ (c :: l).count '.' := by
  rw [List.count_cons]
  split <;> omega

theorem count_dot_cons_ne (c : Char) (l : List Char) (hc : ¬c = '.') :
    (c :: l).count '.' = l.count '.' := by
  rw [List.count_cons]
  simp [hc]

theorem elemsMatchFuel_congr :
    ∀ (f g : Nat) (es : List Elem) (l : List Char),
      es.length + l.length < f → es.length + l.length < g →
      elemsMatchFuel f es l = elemsMatchFuel g es l := by
  intro f
  induction f with
  | zero => intro g es l hf _; exact absurd hf (Nat.not_lt_zero _)
  | succ f ih =>
      intro g es l hf hg
      match g, es, l with
      | 0, es, l => exact absurd hg (Nat.not_lt_zero _)
      | g + 1, [], l => rw [elemsMatchFuel, elemsMatchFuel]
      | g + 1, Elem.sep :: es, [] => rw [elemsMatchFuel, elemsMatchFuel]
      | g + 1, Elem.sep :: es, c :: l =>
          rw [elemsMatchFuel, elemsMatchFuel]
          simp only [List.length_cons] at hf hg
          rw [ih g es l (by omega) (by omega)]
      | g + 1, Elem.lit s :: es, l =>
          rw [elemsMatchFuel, elemsMatchFuel]
          have hd : (l.drop s.length).length ≤ l.length := by
            rw [List.length_drop]
            omega
          simp only [List.length_cons] at hf hg
          rw [ih g es (l.drop s.length) (by omega) (by omega)]
      | g + 1, Elem.star :: es, [] => rw [elemsMatchFuel, elemsMatchFuel]
      | g + 1, Elem.star :: es, c :: l =>
          rw [elemsMatchFuel, elemsMatchFuel]
          simp only [List.length_cons] at hf hg
          rw [ih g (Elem.star0 :: es) l
            (by simp only [List.length_cons]; omega)
            (by simp only [List.length_cons]; omega)]
      | g + 1, Elem.star0 :: es, [] =>
          rw [elemsMatchFuel, elemsMatchFuel]
          simp only [List.length_cons, List.length_nil] at hf hg
          rw [ih g es [] (by simp only [List.length_nil]; omega)
            (by simp only [List.length_nil]; omega)]
      | g + 1, Elem.star0 :: es, c :: l =>
          rw [elemsMatchFuel, elemsMatchFuel]
          simp only [List.length_cons] at hf hg
          rw [ih g es (c :: l)
            (by simp only [List.length_cons]; omega)
            (by simp only [List.length_cons]; omega)]
          rw [ih g (Elem.star0 :: es) l
            (by simp only [List.length_cons]; omega)
            (by simp only [List.length_cons]; omega)]
      | g + 1, Elem.deep :: es, [] =>
          rw [elemsMatchFuel, elemsMatchFuel]
          simp only [List.length_cons, List.length_nil] at hf hg
          rw [ih g es [] (by simp only [List.length_nil]; omega)
            (by simp only [List.length_nil]; omega)]
      | g + 1, Elem.deep :: es, c :: l =>
          rw [elemsMatchFuel, elemsMatchFuel]
          simp only [List.length_cons] at hf hg
          rw [ih g es (c :: l)
            (by simp only [List.length_cons]; omega)
            (by simp only [List.length_cons]; omega)]
          rw [ih g (Elem.deep :: es) l
            (by simp only [List.length_cons]; omega)
            (by simp only [List.length_cons]; omega)]

theorem elemsMatchFuel_spec (es : List Elem) (l : List Char) (f : Nat)
    (hf : es.length + l.length < f) :
    elemsMatchFuel f es l = elemsMatch es l :=
  elemsMatchFuel_congr f (es.length + l.length + 1) es l hf (by omega)

theorem splitOnDot_ne_nil (l : List Char) : splitOnDot l ≠ [] := by
  induction l with
  | nil => simp [splitOnDot]
  | cons c l ih =>
      simp only [splitOnDot]
      split
      · simp
      · cases h : splitOnDot l with
        | nil => simp
        | cons p ps => simp

theorem splitOnDot_no_dot :
    ∀ (l : List Char) (part : List Char), part ∈ splitOnDot l → '.' ∉ part := by
  intro l
  induction l with
  | nil =>
      intro part hp
      simp [splitOnDot] at hp
      subst hp
      simp
  | cons c l ih =>
      intro part hp
      by_cases hc : c = '.'
      · rw [splitOnDot, if_pos hc] at hp
        rcases List.mem_cons.mp hp with h | h
        · subst h; simp
        · exact ih part h
      · rw [splitOnDot, if_neg hc] at hp
        cases hsp : splitOnDot l with
        | nil => exact absurd hsp (splitOnDot_ne_nil l)
        | cons p ps =>
            rw [hsp] at hp
            rcases List.mem_cons.mp hp with h | h
            · subst h
              intro hmem
              rcases List.mem_cons.mp hmem with h' | h'
              · exact hc h'.symm
              · exact ih p (hsp ▸ List.mem_cons_self p ps) h'
            · exact ih part (hsp ▸ List.mem_cons_of_mem p h)

theorem splitOnDot_length (l : List Char) :
    (splitOnDot l).length = l.count '.' + 1 := by
  induction l with
  | nil => simp [splitOnDot]
  | cons c l ih =>
      by_cases hc : c = '.'
      · subst hc
        rw [splitOnDot, if_pos rfl]
        simp [List.count_cons, ih]
      · rw [splitOnDot, if_neg hc]
        cases hsp : splitOnDot l with
        | nil => exact absurd hsp (splitOnDot_ne_nil l)
        | cons p ps =>
            rw [hsp] at ih
            simp only [List.length_cons] at ih ⊢
            simp [List.count_cons, hc, ih]

theorem parsePatternChunks_static (l : List Char) (s : List Char)
    (h : chunk.static s ∈ parsePatternChunks l) : s.count '.' = 0 := by
  simp only [parsePatternChunks, List.mem_filterMap] at h
  obtain ⟨part, hmem, hf⟩ := h
  by_cases h1 : part = [] <;> by_cases h2 : part = ['*'] <;>
    by_cases h3 : part = ['*', '*'] <;> simp [h1, h2, h3] at hf
  all_goals
    subst hf
    exact List.count_eq_zero.mpr (splitOnDot_no_dot l part hmem)

theorem elemsMatchFuel_dotsLB :
    ∀ (fuel : Nat) (es : List Elem) (l : List Char),
      elemsMatchFuel fuel es l = true → dotsLB es ≤ l.count '.' := by
  intro fuel
  induction fuel with
  | zero => intro es l h; simp [elemsMatchFuel] at h
  | succ fuel ih =>
      intro es l h
      match es, l with
      | [], l =>
          rw [elemsMatchFuel, List.isEmpty_iff] at h
          subst h
          simp [dotsLB]
      | Elem.sep :: es, [] => simp [elemsMatchFuel] at h
      | Elem.sep :: es, c :: l =>
          rw [elemsMatchFuel] at h
          simp only [Bool.and_eq_true, decide_eq_true_eq] at h
          obtain ⟨hc, hm⟩ := h
          have := ih es l hm
          subst hc
          rw [dotsLB_cons, List.count_cons]
          simp [elemDotsLB]
          omega
      | Elem.lit s :: es, l =>
          rw [elemsMatchFuel] at h
          simp only [Bool.and_eq_true] at h
          obtain ⟨hpre, hm⟩ := h
          obtain ⟨t, rfl⟩ := List.isPrefixOf_iff_prefix.mp hpre
          rw [List.drop_left] at hm
          have := ih es t hm
          rw [dotsLB_cons, List.count_append]
          simp only [elemDotsLB]
          omega
      | Elem.star :: es, [] => simp [elemsMatchFuel] at h
      | Elem.star :: es, c :: l =>
          rw [elemsMatchFuel] at h
          simp only [Bool.and_eq_true] at h
          obtain ⟨_, hm⟩ := h
          have h1 := ih (Elem.star0 :: es) l hm
          have h2 := count_dot_cons_le c l
          rw [dotsLB_cons] at h1 ⊢
          simp only [elemDotsLB] at h1 ⊢
          omega
      | Elem.star0 :: es, [] =>
          rw [elemsMatchFuel] at h
          have := ih es [] h
          simpa [dotsLB, elemDotsLB] using this
      | Elem.star0 :: es, c :: l =>
          rw [elemsMatchFuel] at h
          simp only [Bool.or_eq_true, Bool.and_eq_true] at h
          rcases h with h | ⟨_, h⟩
          · have := ih es (c :: l) h
            simpa [dotsLB, elemDotsLB] using this
          · have h1 := ih (Elem.star0 :: es) l h
            have h2 := count_dot_cons_le c l
            rw [dotsLB_cons] at h1 ⊢
            simp only [elemDotsLB] at h1 ⊢
            omega
      | Elem.deep :: es, [] =>
          rw [elemsMatchFuel] at h
          have := ih es [] h
          simpa [dotsLB, elemDotsLB] using this
      | Elem.deep :: es, c :: l =>
          rw [elemsMatchFuel] at h
          simp only [Bool.or_eq_true, Bool.and_eq_true] at h
          rcases h with h | ⟨_, h⟩
          · have := ih es (c :: l) h
            simpa [dotsLB, elemDotsLB] using this
          · have h1 := ih (Elem.deep :: es) l h
            have h2 := count_dot_cons_le c l
            rw [dotsLB_cons] at h1 ⊢
            simp only [elemDotsLB] at h1 ⊢
            omega

theorem elemsMatchFuel_dots_eq :
    ∀ (fuel : Nat) (es : List Elem) (l : List Char), Elem.deep ∉ es →
      elemsMatchFuel fuel es l = true → l.count '.' = dotsLB es := by
  intro fuel
  induction fuel with
  | zero => intro es l _ h; simp [elemsMatchFuel] at h
  | succ fuel ih =>
      intro es l hnd h
      match es, l with
      | [], l =>
          rw [elemsMatchFuel, List.isEmpty_iff] at h
          subst h
          simp [dotsLB]
      | Elem.sep :: es, [] => simp [elemsMatchFuel] at h
      | Elem.sep :: es, c :: l =>
          rw [elemsMatchFuel] at h
          simp only [Bool.and_eq_true, decide_eq_true_eq] at h
          obtain ⟨hc, hm⟩ := h
          have hnd' : Elem.deep ∉ es := fun hx => hnd (List.mem_cons_of_mem _ hx)
          have := ih es l hnd' hm
          subst hc
          rw [dotsLB_cons, List.count_cons]
          simp [elemDotsLB]
          omega
      | Elem.lit s :: es, l =>
          rw [elemsMatchFuel] at h
          simp only [Bool.and_eq_true] at h
          obtain ⟨hpre, hm⟩ := h
          obtain ⟨t, rfl⟩ := List.isPrefixOf_iff_prefix.mp hpre
          rw [List.drop_left] at hm
          have hnd' : Elem.deep ∉ es := fun hx => hnd (List.mem_cons_of_mem _ hx)
          have := ih es t hnd' hm
          rw [dotsLB_cons, List.count_append]
          simp only [elemDotsLB]
          omega
      | Elem.star :: es, [] => simp [elemsMatchFuel] at h
      | Elem.star :: es, c :: l =>
          rw [elemsMatchFuel] at h
          simp only [Bool.and_eq_true, Bool.not_eq_true', decide_eq_false_iff_not] at h
          obtain ⟨hc, hm⟩ := h
          have hnd' : Elem.deep ∉ Elem.star0 :: es := by
            intro hx
            rcases List.mem_cons.mp hx with h' | h'
            · exact absurd h' (by simp)
            · exact hnd (List.mem_cons_of_mem _ h')
          have h1 := ih (Elem.star0 :: es) l hnd' hm
          have h2 := count_dot_cons_ne c l hc
          rw [dotsLB_cons] at h1 ⊢
          simp only [elemDotsLB] at h1 ⊢
          omega
      | Elem.star0 :: es, [] =>
          rw [elemsMatchFuel] at h
          have hnd' : Elem.deep ∉ es := fun hx => hnd (List.mem_cons_of_mem _ hx)
          have := ih es [] hnd' h
          simpa [dotsLB, elemDotsLB] using this
      | Elem.star0 :: es, c :: l =>
          rw [elemsMatchFuel] at h
          simp only [Bool.or_eq_true, Bool.and_eq_true, Bool.not_eq_true',
            decide_eq_false_iff_not] at h
          have hnd' : Elem.deep ∉ es := fun hx => hnd (List.mem_cons_of_mem _ hx)
          rcases h with h | ⟨hc, h⟩
          · have := ih es (c :: l) hnd' h
            simpa [dotsLB, elemDotsLB] using this
          · have h1 := ih (Elem.star0 :: es) l hnd h
            have h2 := count_dot_cons_ne c l hc
            rw [dotsLB_cons] at h1 ⊢
            simp only [elemDotsLB] at h1 ⊢
            omega
      | Elem.deep :: es, l => exact absurd (List.mem_cons_self _ _) hnd

theorem dotsLB_chunkTail (rest : List chunk) :
    dotsLB (rest.foldr (fun c' acc => Elem.sep :: elemOfChunk c' :: acc) []) =
      rest.length + (rest.map fun c => elemDotsLB (elemOfChunk c)).sum := by
  induction rest with
  | nil => simp [dotsLB]
  | cons c rest ih =>
      simp only [List.foldr_cons, dotsLB_cons, List.map_cons, List.sum_cons,
        List.length_cons, elemDotsLB] at *
      omega

theorem dotsLB_regExp_ge (cs : List chunk) :
    cs.length - 1 ≤ dotsLB (regExpElemsFromChunks cs) := by
  cases cs with
  | nil => simp [regExpElemsFromChunks, dotsLB]
  | cons c rest =>
      rw [regExpElemsFromChunks, dotsLB_cons]
      have h := dotsLB_chunkTail rest
      rw [h]
      simp only [List.length_cons]
      omega

theorem dotsLB_regExp_eq (cs : List chunk)
    (hstat : ∀ s, chunk.static s ∈ cs → s.count '.' = 0) (hne : cs ≠ []) :
    dotsLB (regExpElemsFromChunks cs) = cs.length - 1 := by
  cases cs with
  | nil => exact absurd rfl hne
  | cons c rest =>
      rw [regExpElemsFromChunks]
      have h := dotsLB_chunkTail rest
      have hc : elemDotsLB (elemOfChunk c) = 0 := by
        cases c with
        | static s => exact hstat s (List.mem_cons_self _ _)
        | wildSingle => rfl
        | wildDeep => rfl
      have hrest : (rest.map fun c => elemDotsLB (elemOfChunk c)).sum = 0 := by
        apply List.sum_eq_zero
        intro x hx
        obtain ⟨ch, hch, rfl⟩ := List.mem_map.mp hx
        cases ch with
        | static s => exact hstat s (List.mem_cons_of_mem _ hch)
        | wildSingle => rfl
        | wildDeep => rfl
      rw [dotsLB_cons, h, hc, hrest]
      simp

theorem deep_not_mem_chunkTail (rest : List chunk) (h : chunk.wildDeep ∉ rest) :
    Elem.deep ∉ rest.foldr (fun c' acc => Elem.sep :: elemOfChunk c' :: acc) [] := by
  induction rest with
  | nil => simp
  | cons c rest ih =>
      simp only [List.foldr_cons]
      intro hx
      rcases List.mem_cons.mp hx with h' | hx'
      · exact absurd h' (by simp)
      rcases List.mem_cons.mp hx' with h' | hx''
      · cases c with
        | static s => exact absurd h' (by simp [elemOfChunk])
        | wildSingle => exact absurd h' (by simp [elemOfChunk])
        | wildDeep => exact h (List.mem_cons_self _ _)
      · exact ih (fun hm => h (List.mem_cons_of_mem _ hm)) hx''

theorem deep_not_mem_regExp (cs : List chunk) (h : chunk.wildDeep ∉ cs) :
    Elem.deep ∉ regExpElemsFromChunks cs := by
  cases cs with
  | nil => simp [regExpElemsFromChunks]
  | cons c rest =>
      rw [regExpElemsFromChunks]
      intro hx
      rcases List.mem_cons.mp hx with h' | hx'
      · cases c with
        | static s => exact absurd h' (by simp [elemOfChunk])
        | wildSingle => exact absurd h' (by simp [elemOfChunk])
        | wildDeep => exact h (List.mem_cons_self _ _)
      · exact deep_not_mem_chunkTail rest
          (fun hm => h (List.mem_cons_of_mem _ hm)) hx'

/-- C1 (amended): the separator written before a trailing deep-wildcard
chunk is required, so compile("a.**") matches "a.b.c" and "a." but does not
match "a"; in general, a pattern whose parsed chunk list ends in the deep
wildcard rejects every event with fewer dots than the number of chunk
separators — in particular the event consisting of only the preceding
segments. -/
theorem c1_deep_wildcard_requires_separator :
    wsMatch "a.**" "a.b.c" = true ∧ wsMatch "a.**" "a." = true ∧
    wsMatch "a.**" "a" = false ∧
    ∀ (p e : String),
      (parsePatternChunks p.data).getLast? = some chunk.wildDeep →
      e.data.count '.' + 1 < (parsePatternChunks p.data).length →
      wsMatch p e = false := by
  refine ⟨by decide, by decide, by decide, ?_⟩
  intro p e _hlast hlt
  cases hb : wsMatch p e with
  | false => rfl
  | true =>
      exfalso
      rw [wsMatch, elemsMatch] at hb
      have hle := elemsMatchFuel_dotsLB _ _ _ hb
      have hge := dotsLB_regExp_ge (parsePatternChunks p.data)
      omega

/-- C1 counterexample: the claim asserts that the compiled pattern "a.**"
matches the event "a"; on the code the match is false (the compiled regex
requires the literal dot before the deep-wildcard pattern). -/
theorem c1_counterexample : wsMatch "a.**" "a" = false := by decide

/-- C1 witness: the general part of the amended theorem applied to the
pattern "a.**" and the event "a". -/
theorem c1_deep_wildcard_requires_separator_witness :
    (parsePatternChunks "a.**".data).getLast? = some chunk.wildDeep ∧
    "a".data.count '.' + 1 < (parsePatternChunks "a.**".data).length ∧
    wsMatch "a.**" "a" = false :=
  ⟨by decide, by decide,
    c1_deep_wildcard_requires_separator.2.2.2 "a.**" "a" (by decide) (by decide)⟩

/-- C8: the single wildcard matches exactly one dot-free segment, so "a.*"
matches "a.b" but neither "a.b.c" nor "a"; in general any pattern without a
deep-wildcard chunk rejects every event having more (nonempty) segments than
the pattern has chunks. -/
theorem c8_single_wildcard_one_segment :
    wsMatch "a.*" "a.b" = true ∧ wsMatch "a.*" "a.b.c" = false ∧
    wsMatch "a.*" "a" = false ∧
    ∀ (p e : String),
      chunk.wildDeep ∉ parsePatternChunks p.data →
      (parsePatternChunks p.data).length < eventSegs e →
      wsMatch p e = false := by
  refine ⟨by decide, by decide, by decide, ?_⟩
  intro p e hnd hlt
  cases hb : wsMatch p e with
  | false => rfl
  | true =>
      exfalso
      rw [wsMatch, elemsMatch] at hb
      have hsegs : eventSegs e ≤ (splitOnDot e.data).length :=
        List.length_filter_le _ _
      cases hcs : parsePatternChunks p.data with
      | nil =>
          rw [hcs] at hlt
          simp only [hcs, regExpElemsFromChunks, List.length_nil] at hb
          rw [elemsMatchFuel, List.isEmpty_iff] at hb
          have hz : eventSegs e = 0 := by
            simp [eventSegs, hb, splitOnDot]
          simp only [List.length_nil] at hlt
          omega
      | cons c rest =>
          have heq := elemsMatchFuel_dots_eq _ _ _ (deep_not_mem_regExp _ hnd) hb
          rw [hcs] at heq hlt
          have hstat : ∀ s, chunk.static s ∈ c :: rest → List.count '.' s = 0 := by
            intro s hs
            exact parsePatternChunks_static p.data s (hcs ▸ hs)
          rw [dotsLB_regExp_eq (c :: rest) hstat (by simp)] at heq
          have hlen := splitOnDot_length e.data
          simp only [List.length_cons] at hlt heq
          omega

/-- C8 witness: the general part applied to the pattern "a.*" and the event
"a.b.c". -/
theorem c8_single_wildcard_one_segment_witness :
    chunk.wildDeep ∉ parsePatternChunks "a.*".data ∧
    (parsePatternChunks "a.*".data).length < eventSegs "a.b.c" ∧
    wsMatch "a.*" "a.b.c" = false :=
  ⟨by decide, by decide,
    c8_single_wildcard_one_segment.2.2.2 "a.*" "a.b.c" (by decide) (by decide)⟩

/-- C6 counterexample: the pattern whose characters spell out a literal
followed by a star has a trailing segment that is neither wildcard token,
yet Server.Use registers it unchanged (the code tests the string suffix, not
the trailing segment), so no deep wildcard is appended. -/
theorem c6_counterexample :
    specTrailingSegment ['f', 'o', 'o', '*'] ≠ wildcardSingle ∧
    specTrailingSegment ['f', 'o', 'o', '*'] ≠ wildcardDeep ∧
    useEvent (some ['f', 'o', 'o', '*']) = ['f', 'o', 'o', '*'] := by
  exact ⟨by decide, by decide, by decide⟩

/-- C6 (amended): Server.Use keys on the string suffix, not on the trailing
segment: a string first argument is registered unchanged exactly when it
ends with the star character (a double-star suffix implies a star suffix),
and otherwise a dot and the deep wildcard are appended; with no string
argument the registered pattern is the deep wildcard. -/
theorem c6_use_pattern_normalisation :
    useEvent none = wildcardDeep ∧
    ∀ ev : List Char,
      useEvent (some ev) =
        if wildcardSingle.isSuffixOf ev then ev
        else ev ++ '.' :: wildcardDeep := by
  refine ⟨rfl, ?_⟩
  intro ev
  rw [useEvent]
  cases h1 : wildcardSingle.isSuffixOf ev with
  | true => simp [h1]
  | false =>
      have h2 : wildcardDeep.isSuffixOf ev = false := by
        cases hd : wildcardDeep.isSuffixOf ev with
        | false => rfl
        | true =>
            exfalso
            have hsuf : wildcardSingle <:+ ev :=
              List.IsSuffix.trans ⟨['*'], rfl⟩ (List.isSuffixOf_iff_suffix.mp hd)
            rw [List.isSuffixOf_iff_suffix.mpr hsuf] at h1
            exact absurd h1 (by simp)
      simp [h1, h2]

/-- C4: Socket.Close is idempotent: starting from a fresh socket, the first
Close call flips the latch, records status, reason and source, and cancels
the context exactly once; any sequence of further Close calls leaves the
state unchanged; and on any state a Close call triggers cancellation exactly
when the latch flips, that is, when the state was not yet closed. -/
theorem c4_socket_close_idempotent :
    ∀ (a : CloseArgs) (rest : List CloseArgs),
      (applyClose freshSocketClose a).closed = true ∧
      (applyClose freshSocketClose a).closeStatus = a.status ∧
      (applyClose freshSocketClose a).closeReason = a.reason ∧
      (applyClose freshSocketClose a).closeStatusSource = a.source ∧
      (applyClose freshSocketClose a).cancelCount = 1 ∧
      rest.foldl applyClose (applyClose freshSocketClose a) =
        applyClose freshSocketClose a ∧
      ∀ (st : SocketClose) (b : CloseArgs),
        (applyClose st b).cancelCount ≠ st.cancelCount ↔ st.closed = false := by
  have hstable : ∀ (st : SocketClose), st.closed = true →
      ∀ (rest : List CloseArgs), rest.foldl applyClose st = st := by
    intro st hst rest
    induction rest with
    | nil => rfl
    | cons b rest ih =>
        have hb : applyClose st b = st := by
          simp [applyClose, socketCloseCall, hst]
        rw [List.foldl_cons, hb, ih]
  intro a rest
  have hclosed : (applyClose freshSocketClose a).closed = true := by
    simp [applyClose, socketCloseCall, freshSocketClose]
  refine ⟨hclosed, ?_, ?_, ?_, ?_, hstable _ hclosed rest, ?_⟩
  · simp [applyClose, socketCloseCall, freshSocketClose]
  · simp [applyClose, socketCloseCall, freshSocketClose]
  · simp [applyClose, socketCloseCall, freshSocketClose]
  · simp [applyClose, socketCloseCall, freshSocketClose]
  · intro st b
    cases hst : st.closed with
    | true => simp [applyClose, socketCloseCall, hst]
    | false => simp [applyClose, socketCloseCall, hst]

/-- C9: HandleNextMessageWithNode classifies a transport read error into
exactly three outcomes: a close-status error (extracted status not negative
one) closes the socket with that status, empty reason and client source and
returns false to the loop; a cancellation error returns false without
touching the close state; any other error is propagated as a raised,
unrecoverable failure and is never swallowed. -/
theorem c9_read_error_classification :
    ∀ (st : SocketClose) (e : ReadErr),
      (e.closeStatus ≠ -1 →
        handleNextMessageWithNode st (some e) =
          (ReadLoopOutcome.returned false,
            socketCloseCall st e.closeStatus "" CloseSource.client, false)) ∧
      (e.closeStatus = -1 → e.canceled = true →
        handleNextMessageWithNode st (some e) =
          (ReadLoopOutcome.returned false, st, false)) ∧
      (e.closeStatus = -1 → e.canceled = false →
        handleNextMessageWithNode st (some e) =
          (ReadLoopOutcome.panicked, st, false)) ∧
      (st.closed = false → e.closeStatus ≠ -1 →
        ((handleNextMessageWithNode st (some e)).2.1.closed = true ∧
          (handleNextMessageWithNode st (some e)).2.1.closeStatus = e.closeStatus ∧
          (handleNextMessageWithNode st (some e)).2.1.closeStatusSource =
            CloseSource.client)) := by
  intro st e
  refine ⟨?_, ?_, ?_, ?_⟩
  · intro h
    simp [handleNextMessageWithNode, h]
  · intro h hc
    simp [handleNextMessageWithNode, h, hc]
  · intro h hc
    simp [handleNextMessageWithNode, h, hc]
  · intro hst h
    simp [handleNextMessageWithNode, h, socketCloseCall, hst]

/-- C9 witness: a close-status read error with code 1001 against a fresh
socket returns false and records the client-sourced close. -/
theorem c9_read_error_classification_witness :
    handleNextMessageWithNode freshSocketClose (some ⟨1001, false⟩) =
      (ReadLoopOutcome.returned false,
        socketCloseCall freshSocketClose 1001 "" CloseSource.client, false) :=
  (c9_read_error_classification freshSocketClose ⟨1001, false⟩).1 (by decide)

theorem nextFuel_intercepted (hsem : Nat → DState → DState) (fuel : Nat)
    (c : Ctx) (herr : c.ds.errorSet = false) (hcl : c.ds.socketClosed = false)
    (hid : c.ds.message.hasSetID = true)
    (hmem : c.ds.message.ID ∈ c.ds.interceptors) :
    NextFuel hsem (fuel + 1) c =
      some { c with tr := { c.tr with
        delivered := c.tr.delivered ++ [c.ds.message.ID] } } := by
  rw [NextFuel]
  simp [herr, hcl, hid, hmem]

theorem eventStep_hasSetID (c c2 : Ctx) (h : eventStep c = some c2) :
    c2.ds.message.hasSetID = c.ds.message.hasSetID := by
  unfold eventStep at h
  split at h
  · split at h
    · split at h
      · exact absurd h (by simp)
      · split at h
        · obtain rfl := Option.some.inj h
          rfl
        · obtain rfl := Option.some.inj h
          rfl
    · obtain rfl := Option.some.inj h
      rfl
  · obtain rfl := Option.some.inj h
    rfl

theorem nextFuel_hasSetID_false (hsem : Nat → DState → DState)
    (hpres : ∀ h u, u.message.hasSetID = false →
      (hsem h u).message.hasSetID = false) :
    ∀ (fuel : Nat) (c : Ctx), c.ds.message.hasSetID = false →
      ∀ c', NextFuel hsem fuel c = some c' →
        c'.ds.message.hasSetID = false := by
  intro fuel
  induction fuel with
  | zero => intro c hc c' h; simp [NextFuel] at h
  | succ fuel ih =>
      intro c hc c' h
      rw [NextFuel] at h
      simp only [hc, Bool.false_and, Bool.false_eq_true, if_false] at h
      split at h
      · obtain rfl := Option.some.inj h
        exact hc
      · split at h
        · exact absurd h (by simp)
        · rename_i c2 hes
          have hc2 : c2.ds.message.hasSetID = false := by
            rw [eventStep_hasSetID c c2 hes]; exact hc
          split at h
          · obtain rfl := Option.some.inj h
            exact hc2
          · rename_i nodes2 matches2 idx2 htag hsel
            split at h
            · exact absurd h (by simp)
            · rename_i n hhd
              split at h
              · rw [Option.map_eq_some'] at h
                obtain ⟨c4, h4, rfl⟩ := h
                exact ih _ (hpres htag c2.ds hc2) c4 h4
              · simp only [Option.map_some'] at h
                obtain rfl := Option.some.inj h
                exact hpres htag c2.ds hc2

theorem ctxMeasure_eq (c : Ctx) :
    ctxMeasure c = nodesSum c.nodes - min c.idx (headHandlers c.nodes) := rfl

theorem selectLoop_measure (ev : String) :
    ∀ (ns : List HandlerNode) (m : Bool) (idx : Nat) (cur : Option Nat)
      (ns2 : List HandlerNode) (m2 : Bool) (idx2 : Nat) (h : Nat),
      selectLoop ev ns m idx cur = (ns2, m2, idx2, some h) → ns2 ≠ [] →
      nodesSum ns2 - min idx2 (headHandlers ns2) <
        nodesSum ns - min idx (headHandlers ns) := by
  intro ns
  induction ns with
  | nil =>
      intro m idx cur ns2 m2 idx2 h hs hne
      rw [selectLoop] at hs
      simp only [Prod.mk.injEq] at hs
      obtain ⟨rfl, -, -, -⟩ := hs
      exact absurd rfl hne
  | cons n rest ih =>
      intro m idx cur ns2 m2 idx2 h hs hne
      rw [selectLoop] at hs
      by_cases hm : (m || tryMatchNode n ev) = true
      · rw [if_pos hm] at hs
        by_cases hidx : idx < n.handlers.length
        · rw [if_pos hidx] at hs
          simp only [Prod.mk.injEq] at hs
          obtain ⟨rfl, -, rfl, -⟩ := hs
          simp only [nodesSum, headHandlers, List.map_cons, List.sum_cons,
            List.head?_cons]
          omega
        · rw [if_neg hidx] at hs
          have hlt := ih false 0 none ns2 m2 idx2 h hs hne
          simp only [nodesSum, headHandlers, List.map_cons, List.sum_cons,
            List.head?_cons] at hlt ⊢
          omega
      · rw [if_neg hm] at hs
        have hlt := ih false idx cur ns2 m2 idx2 h hs hne
        simp only [nodesSum, headHandlers, List.map_cons, List.sum_cons,
          List.head?_cons] at hlt ⊢
        omega

theorem eventStep_measure (c c2 : Ctx) (h : eventStep c = some c2) :
    nodesSum c2.nodes - min c2.idx (headHandlers c2.nodes) ≤
      nodesSum c.nodes - min c.idx (headHandlers c.nodes) := by
  unfold eventStep at h
  split at h
  · split at h
    · split at h
      · exact absurd h (by simp)
      · rename_i n rest hnodes
        split at h
        · obtain rfl := Option.some.inj h
          rw [hnodes]
          simp only [clearHasSetEvent, nodesSum, headHandlers, List.map_cons,
            List.sum_cons, List.head?_cons]
          omega
        · obtain rfl := Option.some.inj h
          exact le_of_eq rfl
    · obtain rfl := Option.some.inj h
      exact le_of_eq rfl
  · obtain rfl := Option.some.inj h
    exact le_of_eq rfl

theorem nextFuel_congr (hsem : Nat → DState → DState) :
    ∀ (f g : Nat) (c : Ctx), ctxMeasure c < f → ctxMeasure c < g →
      NextFuel hsem f c = NextFuel hsem g c := by
  intro f
  induction f with
  | zero => intro g c hf _; exact absurd hf (Nat.not_lt_zero _)
  | succ f ih =>
      intro g c hf hg
      match g with
      | 0 => exact absurd hg (Nat.not_lt_zero _)
      | g + 1 =>
          simp only [NextFuel]
          split

          · rfl
          · split
            · rfl
            · split
              · rfl
              · rename_i c2 hes
                split
                · rfl
                · rename_i nodes2 matches2 idx2 htag hsel
                  split
                  · rfl
                  · rename_i n hhd
                    split
                    · have hc1 :
                        nodesSum c2.nodes - min c2.idx (headHandlers c2.nodes) ≤
                          ctxMeasure c := by
                        rw [ctxMeasure_eq]
                        calc nodesSum c2.nodes - min c2.idx (headHandlers c2.nodes)
                            ≤ nodesSum (if c.ds.message.hasSetID then clearHasSetID c
                                else c).nodes -
                              min (if c.ds.message.hasSetID then clearHasSetID c
                                else c).idx
                                (headHandlers (if c.ds.message.hasSetID then
                                  clearHasSetID c else c).nodes) :=
                              eventStep_measure _ c2 hes
                          _ = nodesSum c.nodes - min c.idx (headHandlers c.nodes) := by
                              split <;> rfl
                      have hsel' := selectLoop_measure c2.ds.message.Event c2.nodes
                        c2.nodeMatches c2.idx c2.cur nodes2 matches2 idx2 htag hsel
                        (by intro hnil; rw [hnil] at hhd; exact Option.noConfusion hhd)
                      have hm3 : nodesSum nodes2 - min idx2 (headHandlers nodes2) <
                          ctxMeasure c := lt_of_lt_of_le hsel' hc1
                      congr 1
                      apply ih
                      · show nodesSum nodes2 - min idx2 (headHandlers nodes2) < f
                        omega
                      · show nodesSum nodes2 - min idx2 (headHandlers nodes2) < g
                        omega
                    · rfl

theorem next_eq_nextFuel (hsem : Nat → DState → DState) (c : Ctx) (g : Nat)
    (hg : ctxMeasure c < g) : NextFuel hsem g c = Next hsem c := by
  rw [Next]
  exact nextFuel_congr hsem g (ctxMeasure c + 1) c hg (by omega)

/-- C2: a dispatch with no prior error on an open socket, whose message
carries the set-identifier flag with an interceptor registered under that
identifier, delivers the message on the interceptor channel exactly once and
invokes no handler of any node: Next returns immediately with exactly one
new delivery recorded, the invocation trace unchanged, and the message (still
flagged) handed over as is. -/
theorem c2_interceptor_delivery (hsem : Nat → DState → DState) (c : Ctx)
    (herr : c.ds.errorSet = false) (hcl : c.ds.socketClosed = false)
    (hid : c.ds.message.hasSetID = true)
    (hmem : c.ds.message.ID ∈ c.ds.interceptors) :
    Next hsem c =
      some { c with tr := { c.tr with
        delivered := c.tr.delivered ++ [c.ds.message.ID] } } ∧
    ∀ c', Next hsem c = some c' →
      c'.tr.delivered = c.tr.delivered ++ [c.ds.message.ID] ∧
      c'.tr.invoked = c.tr.invoked ∧
      c'.ds = c.ds := by
  have h := nextFuel_intercepted hsem (ctxMeasure c) c herr hcl hid hmem
  rw [Next]
  refine ⟨h, ?_⟩
  intro c' hc'
  rw [h] at hc'
  obtain rfl := Option.some.inj hc'
  exact ⟨rfl, rfl, rfl⟩

/-- C2 witness: a concrete fresh message-phase dispatch with one registered
interceptor delivers once and invokes nothing. -/
theorem c2_interceptor_delivery_witness :
    exInterceptCtx.ds.errorSet = false ∧
    exInterceptCtx.ds.socketClosed = false ∧
    exInterceptCtx.ds.message.hasSetID = true ∧
    exInterceptCtx.ds.message.ID ∈ exInterceptCtx.ds.interceptors ∧
    Next hsemNoop exInterceptCtx =
      some { exInterceptCtx with tr := { exInterceptCtx.tr with
        delivered := exInterceptCtx.tr.delivered ++ [exInterceptCtx.ds.message.ID] } } :=
  ⟨rfl, rfl, rfl, by decide,
    (c2_interceptor_delivery hsemNoop exInterceptCtx rfl rfl rfl (by decide)).1⟩

/-- C3 counterexample: on the concrete dispatch whose message identifier has
a registered interceptor, Next returns with the has-set-identifier flag
still set: the flag is not cleared on the matched-interceptor path. -/
theorem c3_counterexample :
    (Next hsemNoop exInterceptCtx).map (fun c => c.ds.message.hasSetID) =
      some true := by decide

/-- C3 (amended): on a dispatch with no prior error and an open socket whose
message carries the set-identifier flag, Next clears the flag exactly when no
interceptor matched: with a matching interceptor it aborts with the flag
still set; with none it behaves as if called on the context with the flag
already cleared, and (provided handlers do not set the flag themselves) the
flag is false when Next returns. -/
theorem c3_hasSetID_cleared_iff_no_interceptor (hsem : Nat → DState → DState)
    (c : Ctx) (herr : c.ds.errorSet = false) (hcl : c.ds.socketClosed = false)
    (hid : c.ds.message.hasSetID = true) :
    (c.ds.message.ID ∈ c.ds.interceptors →
      ∀ c', Next hsem c = some c' → c'.ds.message.hasSetID = true) ∧
    (c.ds.message.ID ∉ c.ds.interceptors →
      Next hsem c = Next hsem (clearHasSetID c) ∧
      ((∀ h u, u.message.hasSetID = false →
          (hsem h u).message.hasSetID = false) →
        ∀ c', Next hsem c = some c' → c'.ds.message.hasSetID = false)) := by
  constructor
  · intro hmem c' hc'
    rw [Next, nextFuel_intercepted hsem (ctxMeasure c) c herr hcl hid hmem] at hc'
    obtain rfl := Option.some.inj hc'
    exact hid
  · intro hmem
    have hM : ctxMeasure (clearHasSetID c) = ctxMeasure c := rfl
    have hswap : Next hsem c = Next hsem (clearHasSetID c) := by
      rw [Next, Next, hM, NextFuel, NextFuel]
      simp [clearHasSetID, herr, hcl, hid, hmem]
    refine ⟨hswap, ?_⟩
    intro hpres c' hc'
    rw [hswap, Next] at hc'
    exact nextFuel_hasSetID_false hsem hpres _ (clearHasSetID c) rfl c' hc'

/-- C3 witness: the amended behaviour on a concrete dispatch with no
matching interceptor: the call coincides with the call on the pre-cleared
context, the dispatch runs the single handler, and the flag is false on
return. -/
theorem c3_hasSetID_cleared_witness :
    Next hsemNoop exNoInterceptCtx = Next hsemNoop (clearHasSetID exNoInterceptCtx) ∧
    Next hsemNoop exNoInterceptCtx = some exNoInterceptResult ∧
    exNoInterceptResult.ds.message.hasSetID = false :=
  ⟨((c3_hasSetID_cleared_iff_no_interceptor hsemNoop exNoInterceptCtx rfl rfl
      rfl).2 (by decide)).1,
    by decide,
    ((c3_hasSetID_cleared_iff_no_interceptor hsemNoop exNoInterceptCtx rfl rfl
      rfl).2 (by decide)).2 (fun _ _ hu => hu) exNoInterceptResult (by decide)⟩

/-- C7 counterexample: releasing a context hands its inbound message back to
the message pool unchanged, so the pooled message retains its user values
(identifier, event, raw data, data, metadata), contradicting the claim that
the released message retains none while it sits in the pool. -/
theorem c7_counterexample :
    (contextFree exCtxRec).snd = some exPooledMsg ∧
    exPooledMsg.ID = "abc" ∧ exPooledMsg.Event = "chat" ∧
    exPooledMsg.RawData = some 1 ∧ exPooledMsg.Data = some 2 ∧
    exPooledMsg.Meta = some 3 := by
  exact ⟨rfl, rfl, rfl, rfl, rfl, rfl⟩

/-- C7 (amended): after release the pooled context itself retains no socket
reference, no message reference, no parent, no marshallers, no cursor, no
error and no associated values; the inbound message, however, is released to
its pool unchanged (free clears nothing), and its user values are cleared
only when it is next acquired from the pool. -/
theorem c7_pool_release_clears_context_only :
    (∀ c : ContextRec,
      (contextFree c).fst.socket = none ∧
      (contextFree c).fst.message = none ∧
      (contextFree c).fst.parentContext = none ∧
      (contextFree c).fst.messageUnmarshaler = none ∧
      (contextFree c).fst.messageMarshaller = none ∧
      (contextFree c).fst.currentHandlerNode = none ∧
      (contextFree c).fst.currentHandler = none ∧
      (contextFree c).fst.Error = none ∧
      (contextFree c).fst.associatedValues = []) ∧
    (∀ c : ContextRec, (contextFree c).snd = c.message.map InboundMessage.free) ∧
    (∀ m : InboundMessage, InboundMessage.free m = m) ∧
    (∀ m : InboundMessage, inboundMessageFromPool m = emptyInboundMessage) :=
  ⟨fun _ => ⟨rfl, rfl, rfl, rfl, rfl, rfl, rfl, rfl, rfl⟩,
    fun _ => rfl, fun _ => rfl, fun _ => rfl⟩

theorem getSocketByID_eq_none (w : World) (id : Nat) :
    getSocketByID w id = none ↔ ∀ e ∈ w.mgr, id ∉ w.roomSockets e.snd := by
  rw [getSocketByID, List.findSome?_eq_none_iff]
  constructor
  · intro h e he hid
    have hf := h e he
    rw [List.find?_eq_none] at hf
    exact absurd (by simp : (id == id) = true) (hf id hid)
  · intro h e he
    rw [List.find?_eq_none]
    intro x hx hbe
    rw [beq_iff_eq] at hbe
    subst hbe
    exact h e he hx

/-- C10: Context.EmitTo returns a nil error and sends to nobody whenever the
context holds no socket, no room manager is attached, or the target
identifier belongs to no socket currently in any room; the only error it can
ever return is the transport send result after a successful lookup, so the
socket-not-found error of the taxonomy is never produced by the lookup
failure. -/
theorem c10_emitTo_nil_on_missing :
    ∀ (sa rm : Bool) (w : World) (id : Nat) (sendRes : Nat → Option GoError),
      (sa = false → ctxEmitTo sa rm w id sendRes = (none, none)) ∧
      (rm = false → ctxEmitTo sa rm w id sendRes = (none, none)) ∧
      ((∀ e ∈ w.mgr, id ∉ w.roomSockets e.snd) →
        ctxEmitTo sa rm w id sendRes = (none, none)) ∧
      (∀ target, getSocketByID w id = some target → sa = true → rm = true →
        ctxEmitTo sa rm w id sendRes = (sendRes target, some target)) := by
  intro sa rm w id sendRes
  refine ⟨?_, ?_, ?_, ?_⟩
  · intro h; subst h; simp [ctxEmitTo]
  · intro h; subst h; simp [ctxEmitTo]
  · intro h
    cases sa with
    | false => simp [ctxEmitTo]
    | true =>
        cases rm with
        | false => simp [ctxEmitTo]
        | true =>
            have hn := (getSocketByID_eq_none w id).mpr h
            simp [ctxEmitTo, hn]
  · intro t ht hsa hrm
    subst hsa; subst hrm
    simp [ctxEmitTo, ht]

theorem aLookup_aErase (xs : List (String × Nat)) (k k' : String) :
    aLookup (aErase xs k) k' = if k' = k then none else aLookup xs k' := by
  induction xs with
  | nil =>
      simp only [aErase, List.filter_nil, aLookup]
      split <;> rfl
  | cons e xs ih =>
      rw [aErase, List.filter_cons]
      by_cases hek : e.fst = k
      · rw [if_neg (by simp [hek]), ← aErase, ih]
        by_cases hk : k' = k
        · simp [hk]
        · have hek' : ¬e.fst = k' := by rw [hek]; exact fun h => hk h.symm
          simp [hk, aLookup, hek']
      · rw [if_pos (by simp [hek]), aLookup, ← aErase]
        by_cases he : e.fst = k'
        · have hk : ¬k' = k := fun h => hek (by rw [he, h])
          simp [he, hk, aLookup]
        · rw [ih]
          simp [aLookup, he]

theorem aLookup_aInsert (xs : List (String × Nat)) (k : String) (v : Nat)
    (k' : String) :
    aLookup (aInsert xs k v) k' = if k' = k then some v else aLookup xs k' := by
  rw [aInsert, aLookup]
  by_cases hk : k = k'
  · rw [if_pos hk, if_pos hk.symm]
  · have hk' : ¬k' = k := fun h => hk h.symm
    rw [if_neg hk, aLookup_aErase, if_neg hk', if_neg hk']

theorem aLookup_mem_snd (xs : List (String × Nat)) (k : String) (v : Nat)
    (h : aLookup xs k = some v) : v ∈ xs.map Prod.snd := by
  induction xs with
  | nil => simp [aLookup] at h
  | cons e xs ih =>
      rw [aLookup] at h
      by_cases he : e.fst = k
      · rw [if_pos he] at h
        obtain rfl := Option.some.inj h
        simp
      · rw [if_neg he] at h
        simp [ih h]

theorem aLookup_eq_none_iff (xs : List (String × Nat)) (k : String) :
    aLookup xs k = none ↔ ∀ e ∈ xs, e.fst ≠ k := by
  induction xs with
  | nil => simp [aLookup]
  | cons e xs ih =>
      rw [aLookup]
      by_cases he : e.fst = k
      · simp [he]
      · simp [he, ih]

theorem mem_roomAddSocket (w : World) (rid sid r s : Nat) :
    s ∈ (roomAddSocket w rid sid).roomSockets r ↔
      s ∈ w.roomSockets r ∨ (r = rid ∧ s = sid) := by
  show s ∈ (if r = rid then
      (if sid ∈ w.roomSockets rid then w.roomSockets rid
        else sid :: w.roomSockets rid)
      else w.roomSockets r) ↔ _
  by_cases hr : r = rid
  · subst hr
    rw [if_pos rfl]
    by_cases hm : sid ∈ w.roomSockets r
    · rw [if_pos hm]
      constructor
      · intro h
        exact Or.inl h
      · intro h
        rcases h with h | ⟨_, rfl⟩
        · exact h
        · exact hm
    · rw [if_neg hm, List.mem_cons]
      constructor
      · intro h
        rcases h with h | h
        · exact Or.inr ⟨rfl, h⟩
        · exact Or.inl h
      · intro h
        rcases h with h | ⟨_, rfl⟩
        · exact Or.inr h
        · exact Or.inl rfl
  · rw [if_neg hr]
    simp [hr]

theorem mem_roomRemoveSocket (w : World) (rid sid r s : Nat) :
    s ∈ (roomRemoveSocket w rid sid).roomSockets r ↔
      s ∈ w.roomSockets r ∧ ¬(r = rid ∧ s = sid) := by
  show s ∈ (if r = rid then (w.roomSockets rid).filter (fun x => !(x == sid))
      else w.roomSockets r) ↔ _
  by_cases hr : r = rid
  · subst hr
    rw [if_pos rfl, List.mem_filter]
    simp
  · rw [if_neg hr]
    simp [hr]

theorem foldRemove_socketRooms (entries : List (String × Nat)) (sid : Nat) :
    ∀ w0 : World,
      (entries.foldl (fun acc e => roomRemoveSocket acc e.snd sid) w0).socketRooms =
        w0.socketRooms := by
  induction entries with
  | nil => intro w0; rfl
  | cons e entries ih =>
      intro w0
      rw [List.foldl_cons, ih]
      rfl

theorem mem_foldRemove (entries : List (String × Nat)) (sid r s : Nat) :
    ∀ w0 : World,
      s ∈ (entries.foldl (fun acc e => roomRemoveSocket acc e.snd sid) w0).roomSockets r ↔
        s ∈ w0.roomSockets r ∧ ¬(s = sid ∧ r ∈ entries.map Prod.snd) := by
  induction entries with
  | nil => intro w0; simp
  | cons e entries ih =>
      intro w0
      rw [List.foldl_cons, ih, mem_roomRemoveSocket]
      simp only [List.map_cons, List.mem_cons]
      constructor
      · rintro ⟨⟨hmem, hne⟩, hrest⟩
        refine ⟨hmem, ?_⟩
        rintro ⟨rfl, hr⟩
        rcases hr with hr | hr
        · exact hne ⟨hr, rfl⟩
        · exact hrest ⟨rfl, hr⟩
      · rintro ⟨hmem, hni⟩
        refine ⟨⟨hmem, ?_⟩, ?_⟩
        · rintro ⟨hr, rfl⟩
          exact hni ⟨rfl, Or.inl hr⟩
        · rintro ⟨rfl, hr⟩
          exact hni ⟨rfl, Or.inr hr⟩

theorem sym_insertJoin (w : World) (sid : Nat) (name : String) (rid : Nat)
    (hS : Sym w) (hL : Linked w) (hmgr : aLookup w.mgr name = some rid) :
    Sym (roomAddSocket
      { w with socketRooms := fun s =>
          if s = sid then aInsert (w.socketRooms sid) name rid
          else w.socketRooms s } rid sid) := by
  intro sid' rid'
  rw [mem_roomAddSocket]
  show (∃ n, aLookup (if sid' = sid then aInsert (w.socketRooms sid) name rid
      else w.socketRooms sid') n = some rid') ↔
    sid' ∈ w.roomSockets rid' ∨ (rid' = rid ∧ sid' = sid)
  by_cases hsid : sid' = sid
  · subst hsid
    rw [if_pos rfl]
    constructor
    · rintro ⟨n, hn⟩
      rw [aLookup_aInsert] at hn
      by_cases hnn : n = name
      · rw [if_pos hnn] at hn
        obtain rfl := Option.some.inj hn
        exact Or.inr ⟨rfl, rfl⟩
      · rw [if_neg hnn] at hn
        exact Or.inl ((hS sid' rid').mp ⟨n, hn⟩)
    · intro h
      rcases h with h | ⟨rfl, -⟩
      · obtain ⟨n, hn⟩ := (hS sid' rid').mpr h
        by_cases hnn : n = name
        · subst hnn
          have hl := hL sid' n rid' hn
          rw [hmgr] at hl
          obtain rfl := Option.some.inj hl
          exact ⟨n, by rw [aLookup_aInsert, if_pos rfl]⟩
        · exact ⟨n, by rw [aLookup_aInsert, if_neg hnn]; exact hn⟩
      · exact ⟨name, by rw [aLookup_aInsert, if_pos rfl]⟩
  · rw [if_neg hsid]
    constructor
    · rintro ⟨n, hn⟩
      exact Or.inl ((hS sid' rid').mp ⟨n, hn⟩)
    · intro h
      rcases h with h | ⟨-, h⟩
      · exact (hS sid' rid').mpr h
      · exact absurd h hsid

theorem sym_eraseLeave (w : World) (sid : Nat) (name : String) (rid : Nat)
    (hS : Sym w) (hL : Linked w) (hInj : MgrInj w)
    (hlk : aLookup (w.socketRooms sid) name = some rid) :
    Sym (roomRemoveSocket
      { w with socketRooms := fun s =>
          if s = sid then aErase (w.socketRooms sid) name
          else w.socketRooms s } rid sid) := by
  intro sid' rid'
  rw [mem_roomRemoveSocket]
  show (∃ n, aLookup (if sid' = sid then aErase (w.socketRooms sid) name
      else w.socketRooms sid') n = some rid') ↔
    sid' ∈ w.roomSockets rid' ∧ ¬(rid' = rid ∧ sid' = sid)
  by_cases hsid : sid' = sid
  · subst hsid
    rw [if_pos rfl]
    constructor
    · rintro ⟨n, hn⟩
      rw [aLookup_aErase] at hn
      by_cases hnn : n = name
      · rw [if_pos hnn] at hn
        exact absurd hn (by simp)
      · rw [if_neg hnn] at hn
        refine ⟨(hS sid' rid').mp ⟨n, hn⟩, ?_⟩
        rintro ⟨rfl, -⟩
        exact hnn (hInj n name rid' (hL sid' n rid' hn) (hL sid' name rid' hlk))
    · rintro ⟨hmem, hne⟩
      obtain ⟨n, hn⟩ := (hS sid' rid').mpr hmem
      have hnn : ¬n = name := by
        intro h
        subst h
        rw [hlk] at hn
        obtain rfl := Option.some.inj hn
        exact hne ⟨rfl, rfl⟩
      exact ⟨n, by rw [aLookup_aErase, if_neg hnn]; exact hn⟩
  · rw [if_neg hsid]
    constructor
    · rintro ⟨n, hn⟩
      exact ⟨(hS sid' rid').mp ⟨n, hn⟩, fun h => hsid h.2⟩
    · rintro ⟨hmem, -⟩
      exact (hS sid' rid').mpr hmem

theorem sym_socketJoin (w : World) (sid : Nat) (name : String)
    (hS : Sym w) (hL : Linked w) (hF : MgrFresh w) :
    Sym (socketJoin w sid name) := by
  rw [socketJoin]
  cases hmr : aLookup w.mgr name with
  | some rid =>
      simp only [managerRoom, hmr]
      exact sym_insertJoin w sid name rid hS hL hmr
  | none =>
      simp only [managerRoom, hmr]
      have hfresh : ∀ s n r, aLookup (w.socketRooms s) n = some r →
          r < w.nextRoomId := fun s n r h => hF n r (hL s n r h)
      intro sid' rid'
      rw [mem_roomAddSocket]
      show (∃ n, aLookup (if sid' = sid
          then aInsert (w.socketRooms sid) name w.nextRoomId
          else w.socketRooms sid') n = some rid') ↔
        sid' ∈ (if rid' = w.nextRoomId then [] else w.roomSockets rid') ∨
          (rid' = w.nextRoomId ∧ sid' = sid)
      by_cases hsid : sid' = sid
      · subst hsid
        rw [if_pos rfl]
        constructor
        · rintro ⟨n, hn⟩
          rw [aLookup_aInsert] at hn
          by_cases hnn : n = name
          · rw [if_pos hnn] at hn
            obtain rfl := Option.some.inj hn
            exact Or.inr ⟨rfl, rfl⟩
          · rw [if_neg hnn] at hn
            have hlt := hfresh sid' n rid' hn
            rw [if_neg (by omega)]
            exact Or.inl ((hS sid' rid').mp ⟨n, hn⟩)
        · intro h
          rcases h with h | ⟨rfl, -⟩
          · by_cases hr : rid' = w.nextRoomId
            · rw [if_pos hr] at h
              exact absurd h (List.not_mem_nil sid')
            · rw [if_neg hr] at h
              obtain ⟨n, hn⟩ := (hS sid' rid').mpr h
              have hnn : ¬n = name := by
                intro he
                subst he
                rw [hL sid' n rid' hn] at hmr
                exact Option.noConfusion hmr
              exact ⟨n, by rw [aLookup_aInsert, if_neg hnn]; exact hn⟩
          · exact ⟨name, by rw [aLookup_aInsert, if_pos rfl]⟩
      · rw [if_neg hsid]
        constructor
        · rintro ⟨n, hn⟩
          have hlt := hfresh sid' n rid' hn
          rw [if_neg (by omega)]
          exact Or.inl ((hS sid' rid').mp ⟨n, hn⟩)
        · intro h
          rcases h with h | ⟨-, h⟩
          · by_cases hr : rid' = w.nextRoomId
            · rw [if_pos hr] at h
              exact absurd h (List.not_mem_nil sid')
            · rw [if_neg hr] at h
              exact (hS sid' rid').mpr h
          · exact absurd h hsid

theorem sym_socketLeave (w : World) (sid : Nat) (name : String)
    (hS : Sym w) (hL : Linked w) (hInj : MgrInj w) :
    Sym (socketLeave w sid name) := by
  unfold socketLeave
  cases hlk : aLookup (w.socketRooms sid) name with
  | none => exact hS
  | some rid => exact sym_eraseLeave w sid name rid hS hL hInj hlk

theorem sym_socketLeaveAll (w : World) (sid : Nat) (hS : Sym w) :
    Sym (socketLeaveAll w sid) := by
  unfold socketLeaveAll
  intro sid' rid'
  rw [mem_foldRemove]
  have hsr : ((w.socketRooms sid).foldl
      (fun acc e => roomRemoveSocket acc e.snd sid)
      { w with socketRooms := fun s => if s = sid then [] else w.socketRooms s }).socketRooms =
      fun s => if s = sid then ([] : List (String × Nat)) else w.socketRooms s :=
    foldRemove_socketRooms _ _ _
  rw [hsr]
  show (∃ n, aLookup (if sid' = sid then [] else w.socketRooms sid') n = some rid') ↔
    sid' ∈ w.roomSockets rid' ∧ ¬(sid' = sid ∧ rid' ∈ (w.socketRooms sid).map Prod.snd)
  by_cases hsid : sid' = sid
  · subst hsid
    rw [if_pos rfl]
    constructor
    · rintro ⟨n, hn⟩
      exact absurd hn (by simp [aLookup])
    · rintro ⟨hmem, hni⟩
      obtain ⟨n, hn⟩ := (hS sid' rid').mpr hmem
      exact absurd ⟨rfl, aLookup_mem_snd _ n rid' hn⟩ hni
  · rw [if_neg hsid]
    constructor
    · rintro ⟨n, hn⟩
      exact ⟨(hS sid' rid').mp ⟨n, hn⟩, fun h => hsid h.1⟩
    · rintro ⟨hmem, -⟩
      exact (hS sid' rid').mpr hmem

theorem sym_roomJoin (w : World) (rid sid : Nat)
    (hS : Sym w) (hL : Linked w)
    (hmgr : aLookup w.mgr (w.roomName rid) = some rid) :
    Sym (roomJoin w rid sid) :=
  sym_insertJoin w sid (w.roomName rid) rid hS hL hmgr

theorem sym_roomLeave (w : World) (rid sid : Nat)
    (hS : Sym w) (hL : Linked w) (hInj : MgrInj w)
    (hmgr : aLookup w.mgr (w.roomName rid) = some rid) :
    Sym (roomLeave w rid sid) := by
  cases hlk : aLookup (w.socketRooms sid) (w.roomName rid) with
  | some rid2 =>
      have hl := hL sid (w.roomName rid) rid2 hlk
      rw [hmgr] at hl
      obtain rfl := Option.some.inj hl
      exact sym_eraseLeave w sid (w.roomName rid) rid hS hL hInj hlk
  | none =>
      have hnot : sid ∉ w.roomSockets rid := by
        intro hmem
        obtain ⟨n, hn⟩ := (hS sid rid).mpr hmem
        have := hInj n (w.roomName rid) rid (hL sid n rid hn) hmgr
        subst this
        rw [hlk] at hn
        exact Option.noConfusion hn
      intro sid' rid'
      rw [roomLeave, mem_roomRemoveSocket]
      show (∃ n, aLookup (if sid' = sid
          then aErase (w.socketRooms sid) (w.roomName rid)
          else w.socketRooms sid') n = some rid') ↔
        sid' ∈ w.roomSockets rid' ∧ ¬(rid' = rid ∧ sid' = sid)
      by_cases hsid : sid' = sid
      · subst hsid
        rw [if_pos rfl]
        constructor
        · rintro ⟨n, hn⟩
          rw [aLookup_aErase] at hn
          by_cases hnn : n = w.roomName rid
          · rw [if_pos hnn] at hn
            exact absurd hn (by simp)
          · rw [if_neg hnn] at hn
            refine ⟨(hS sid' rid').mp ⟨n, hn⟩, ?_⟩
            rintro ⟨rfl, -⟩
            exact hnot ((hS sid' rid').mp ⟨n, hn⟩)
        · rintro ⟨hmem, hne⟩
          obtain ⟨n, hn⟩ := (hS sid' rid').mpr hmem
          have hnn : ¬n = w.roomName rid := by
            intro h
            subst h
            rw [hlk] at hn
            exact Option.noConfusion hn
          exact ⟨n, by rw [aLookup_aErase, if_neg hnn]; exact hn⟩
      · rw [if_neg hsid]
        constructor
        · rintro ⟨n, hn⟩
          exact ⟨(hS sid' rid').mp ⟨n, hn⟩, fun h => hsid h.2⟩
        · rintro ⟨hmem, -⟩
          exact (hS sid' rid').mpr hmem

/-- C5 counterexample: after socket 0 joins room r and the manager deletes
room r, the socket's rooms map still holds the room object while the room
object's socket set is empty: membership symmetry is violated by
DeleteRoom (which calls Room.RemoveAll and never touches the sockets'
rooms maps). -/
theorem c5_counterexample :
    ¬Sym (deleteRoom (socketJoin emptyWorld 0 "r") "r") := by
  intro h
  have h1 := (h 0 0).mp ⟨"r", by decide⟩
  exact absurd h1 (by decide)

/-- C5 (amended): membership symmetry is preserved by Socket.Join,
Socket.Leave and leaveAllRooms on any symmetric world whose socket rooms
maps hold no stale references (every referenced room object is the
manager's current room of that name, manager identifiers are below the
allocation counter, and distinct names have distinct room objects), and by
Room.Join and Room.Leave when the room is the manager's current room under
its own name.  DeleteRoom and Room.RemoveAll are excluded: they clear only
the room side and break the symmetry (see the counterexample). -/
theorem c5_membership_symmetry_preserved (w : World) (sid : Nat)
    (name : String) (rid : Nat)
    (hS : Sym w) (hL : Linked w) (hF : MgrFresh w) (hInj : MgrInj w) :
    Sym (socketJoin w sid name) ∧
    Sym (socketLeave w sid name) ∧
    Sym (socketLeaveAll w sid) ∧
    (aLookup w.mgr (w.roomName rid) = some rid →
      Sym (roomJoin w rid sid) ∧ Sym (roomLeave w rid sid)) :=
  ⟨sym_socketJoin w sid name hS hL hF,
    sym_socketLeave w sid name hS hL hInj,
    sym_socketLeaveAll w sid hS,
    fun hmgr =>
      ⟨sym_roomJoin w rid sid hS hL hmgr,
        sym_roomLeave w rid sid hS hL hInj hmgr⟩⟩

/-- C5 witness: the empty world satisfies all well-formedness hypotheses,
and joining socket 0 to the lobby preserves symmetry. -/
theorem c5_membership_symmetry_preserved_witness :
    Sym emptyWorld ∧ Sym (socketJoin emptyWorld 0 "lobby") := by
  have hS : Sym emptyWorld := by
    intro sid rid
    simp [emptyWorld, aLookup]
  have hL : Linked emptyWorld := by
    intro sid n rid h
    simp [emptyWorld, aLookup] at h
  have hF : MgrFresh emptyWorld := by
    intro n rid h
    simp [emptyWorld, aLookup] at h
  have hInj : MgrInj emptyWorld := by
    intro n1 n2 rid h
    simp [emptyWorld, aLookup] at h
  exact ⟨hS,
    (c5_membership_symmetry_preserved emptyWorld 0 "lobby" 0 hS hL hF hInj).1⟩

/-- C10 witness: in a world where socket 0 joined room r, emitting to the
unknown identifier 5 returns a nil error and sends nothing. -/
theorem c10_emitTo_nil_on_missing_witness :
    (∀ e ∈ (socketJoin emptyWorld 0 "r").mgr,
      5 ∉ (socketJoin emptyWorld 0 "r").roomSockets e.snd) ∧
    ctxEmitTo true true (socketJoin emptyWorld 0 "r") 5 (fun _ => none) =
      (none, none) :=
  ⟨by decide,
    (c10_emitTo_nil_on_missing true true (socketJoin emptyWorld 0 "r") 5
      (fun _ => none)).2.2.1 (by decide)⟩

end WSProof
